import Mathlib

/-!
Verification of the Seller-Scraper matching core.

The development embeds the pure core of `app.py` and `seller.py`:
the keyword extractor `get_keywords`, the price normalizer `clean_price`,
the greedy matcher `compare_products`, and the URL deduplication performed
by the `/search` route.  Python dicts that may lack keys are modelled with
`Option` fields; a Python `KeyError` is modelled as `Except.error ()`;
the Python float value `float('inf')` is modelled as `none` in `Option ℚ`
(every successfully parsed price is a finite rational).
-/

namespace SellerScraper

section

attribute [local semireducible] Rat.mul Rat.add Rat.sub Rat.inv Rat.ofScientific

/-- One scraped product listing.  The source keeps listings as Python
dicts; the fields that the matching/deduplication logic ever reads are
`name`, `price` and `product_url`, each of which may be absent (`none`).
The remaining fields (`seller`, `image_url`, `source`) are opaque display
metadata never read by the logic and are omitted. -/
structure Listing where
  name : Option String
  price : Option String
  product_url : Option String
deriving DecidableEq

/-- The result record appended by `compare_products`.  `best_deal` is the
literal string the source stores (`"Amazon"`, `"Flipkart"`, or
`"Both have the same price"`). -/
structure Comparison where
  amazon_product : Listing
  flipkart_product : Listing
  price_difference : String
  best_deal : String
deriving DecidableEq

/-- The ASCII fragment of a Python `\w` word character: letter, digit or
underscore. -/
def isWordChar (c : Char) : Bool :=
  c.isAlphanum || c == '_'

/-- Maximal runs of word characters, i.e. `re.findall(r'\b\w+\b', s)`:
`cur` is the (reversed) run currently being read. -/
def wordRuns (cur : List Char) : List Char → List String
  | [] => if cur.isEmpty then [] else [String.mk cur.reverse]
  | c :: cs =>
    if isWordChar c then wordRuns (c :: cur) cs
    else if cur.isEmpty then wordRuns [] cs
    else String.mk cur.reverse :: wordRuns [] cs

/-- `get_keywords` from `app.py`: the set of word-character runs of the
lower-cased name (`set(re.findall(r'\b\w+\b', name.lower()))`). -/
def get_keywords (name : String) : Finset String :=
  (wordRuns [] (name.toList.map Char.toLower)).toFinset

/-- A character removed by `re.sub(r'[₹,A-Za-z]', '', ...)` in
`clean_price`: the rupee glyph, a comma, or an ASCII letter. -/
def isStrippedChar (c : Char) : Bool :=
  c == '₹' || c == ',' || c.isUpper || c.isLower

/-- Python `str.strip()`: drop leading and trailing whitespace. -/
def pyStrip (l : List Char) : List Char :=
  ((l.dropWhile Char.isWhitespace).reverse.dropWhile Char.isWhitespace).reverse

/-- Validity of the tail of a Python float digit-part after its first
digit: digits, with single underscores allowed only between digits. -/
def digitTail : List Char → Bool
  | [] => true
  | '_' :: c :: cs => c.isDigit && digitTail cs
  | ['_'] => false
  | c :: cs => c.isDigit && digitTail cs

/-- A valid, non-empty Python float digit-part. -/
def digitpartOk : List Char → Bool
  | [] => false
  | c :: cs => c.isDigit && digitTail cs

/-- Numeric value of a digit-part, ignoring underscores. -/
def digitsVal (l : List Char) : ℕ :=
  l.foldl (fun a c => if c = '_' then a else a * 10 + (c.toNat - 48)) 0

/-- Number of digits of a digit-part (underscores do not count). -/
def digitsLen (l : List Char) : ℕ :=
  (l.filter (fun c => c ≠ '_')).length

/-- The fragment of Python `float(...)` parsing reachable after the
stripping in `clean_price` (no letters survive the stripping, so `inf`,
`nan` and exponents cannot occur): an optional integer part and an
optional fractional part around an optional dot, at least one digit in
total.  `none` models a `ValueError`. -/
def pyFloatCore (l : List Char) : Option ℚ :=
  match l.splitOn '.' with
  | [ip] => if digitpartOk ip then some (digitsVal ip) else none
  | [ip, fp] =>
    if (ip.isEmpty || digitpartOk ip) && (fp.isEmpty || digitpartOk fp)
        && !(ip.isEmpty && fp.isEmpty) then
      some ((digitsVal ip : ℚ) + (digitsVal fp : ℚ) / (10 : ℚ) ^ digitsLen fp)
    else none
  | _ => none

/-- Python `float(...)` with an optional leading sign. -/
def pyFloat (l : List Char) : Option ℚ :=
  match l with
  | '+' :: rest => pyFloatCore rest
  | '-' :: rest => (pyFloatCore rest).map (fun q => -q)
  | _ => pyFloatCore l

/-- A normalized price: `none` models Python `float('inf')`, the designed
sentinel for an unknown price; any parsed price is a finite rational. -/
abbrev Price := Option ℚ

/-- `clean_price` from `seller.py`.  The argument is `Option String`:
`none` models a non-string Python value (such as `None`). -/
def clean_price : Option String → Price
  | none => none
  | some s =>
    if s = "N/A" then none
    else pyFloat (pyStrip (s.toList.filter (fun c => !isStrippedChar c)))

/-- Jaccard similarity of two keyword sets as computed in
`compare_products`: `intersection / union if union > 0 else 0`. -/
def similarity (a b : Finset String) : ℚ :=
  if 0 < (a ∪ b).card then ((a ∩ b).card : ℚ) / ((a ∪ b).card : ℚ) else 0

/-- Decidable equality of `Except` results, used to evaluate the embedded
code on concrete inputs. -/
instance exceptDecEq {ε α : Type} [DecidableEq ε] [DecidableEq α] :
    DecidableEq (Except ε α) := fun x y =>
  match x, y with
  | .ok a, .ok b =>
    if h : a = b then .isTrue (h ▸ rfl)
    else .isFalse (fun hc => h (Except.ok.inj hc))
  | .error e, .error f =>
    if h : e = f then .isTrue (h ▸ rfl)
    else .isFalse (fun hc => h (Except.error.inj hc))
  | .ok _, .error _ => .isFalse (fun hc => Except.noConfusion hc)
  | .error _, .ok _ => .isFalse (fun hc => Except.noConfusion hc)

/-- `item['name']` on a Python dict: a missing key raises `KeyError`,
modelled as `Except.error ()`. -/
def getName (l : Listing) : Except Unit String :=
  match l.name with
  | some n => .ok n
  | none => .error ()

/-- Insert a comma after every third character of a reversed digit list
(the grouping of Python format spec `,`). -/
def commaRev : List Char → List Char
  | a :: b :: c :: d :: rest => a :: b :: c :: ',' :: commaRev (d :: rest)
  | l => l

/-- The decimal digits of `n` with thousands separators. -/
def natGrouped (n : ℕ) : String :=
  String.mk (commaRev (toString n).toList.reverse).reverse

/-- Round half to even, the rounding Python `format` applies at a
midpoint. -/
def roundHalfEven (q : ℚ) : ℤ :=
  if q - ⌊q⌋ < 1/2 then ⌊q⌋
  else if 1/2 < q - ⌊q⌋ then ⌊q⌋ + 1
  else if ⌊q⌋ % 2 = 0 then ⌊q⌋ else ⌊q⌋ + 1

/-- Python `f"{q:,.2f}"` for the non-negative values that
`abs(amazon_price - flipkart_price)` produces. -/
def commaTwoDecimals (q : ℚ) : String :=
  String.mk (commaRev (toString ((roundHalfEven (q * 100)).toNat / 100)).toList.reverse).reverse
    ++ "." ++ (if (roundHalfEven (q * 100)).toNat % 100 < 10 then "0" else "")
    ++ toString ((roundHalfEven (q * 100)).toNat % 100)

/-- The currency glyph exactly as the bytes of `app.py` decode: the rupee
sign is double-encoded there, giving the three characters U+00E2, U+201A,
U+00B9 (by contrast, `seller.py` holds a genuine U+20B9 rupee sign both in
the stripping regex of `clean_price` and in the scraped price strings). -/
def appCurrencyGlyph : String := "â‚¹"

/-- `f"â‚¹{abs(amazon_price - flipkart_price):,.2f}"` from
`compare_products`. -/
def price_difference_str (ap fp : ℚ) : String :=
  appCurrencyGlyph ++ commaTwoDecimals |ap - fp|

/-- The `best_deal` string of `compare_products`. -/
def best_deal_str (ap fp : ℚ) : String :=
  if ap < fp then "Amazon"
  else if fp < ap then "Flipkart"
  else "Both have the same price"

/-- The inner loop of `compare_products`: scan the removal pool in order,
tracking the candidate with strictly greatest similarity seen so far,
starting from `best_match = None`, `highest_similarity = 0.0`. -/
def findBest (akw : Finset String) :
    List Listing → Option Listing → ℚ → Except Unit (Option Listing × ℚ)
  | [], best, hs => .ok (best, hs)
  | f :: rest, best, hs => do
    let n ← getName f
    let s := similarity akw (get_keywords n)
    if hs < s then findBest akw rest (some f) s
    else findBest akw rest best hs

/-- The price check and emission step of `compare_products` once a best
match `bm` above the threshold is at hand: normalize both prices with
`clean_price` (defaulting a missing `price` key to `"N/A"`); when both are
finite, emit the comparison and remove `bm` from the pool, otherwise emit
nothing and leave the pool as it is. -/
def emitFor (pool : List Listing) (a bm : Listing) :
    Option Comparison × List Listing :=
  match clean_price (some (a.price.getD "N/A")),
        clean_price (some (bm.price.getD "N/A")) with
  | some ap, some fp =>
    (some ⟨a, bm, price_difference_str ap fp, best_deal_str ap fp⟩,
      pool.erase bm)
  | _, _ => (none, pool)

/-- The body of the outer loop of `compare_products` for one
`amazon_item`: the comparison emitted for it (if any) together with the
updated removal pool. -/
def processItem (pool : List Listing) (a : Listing) :
    Except Unit (Option Comparison × List Listing) := do
  let an ← getName a
  let res ← findBest (get_keywords an) pool none 0
  match res with
  | (some bm, hs) =>
    if 1/5 < hs then .ok (emitFor pool a bm) else .ok (none, pool)
  | (none, _) => .ok (none, pool)

/-- The outer loop of `compare_products` over the Amazon listings,
threading the removal pool. -/
def compareLoop : List Listing → List Listing → Except Unit (List Comparison)
  | [], _ => .ok []
  | a :: rest, pool => do
    let (copt, pool2) ← processItem pool a
    let cs ← compareLoop rest pool2
    match copt with
    | some c => .ok (c :: cs)
    | none => .ok cs

/-- `compare_products` from `app.py` (the working copy of the Flipkart
list is the removal pool). -/
def compare_products (amazon_list flipkart_list : List Listing) :
    Except Unit (List Comparison) :=
  compareLoop amazon_list flipkart_list

/-- One step of the Python dict comprehension
`{p['product_url']: p for p in xs if 'product_url' in p}`: dicts are
insertion-ordered, and assigning to an existing key replaces its value
but keeps the position of the key. -/
def dictInsert (m : List (String × Listing)) (l : Listing) :
    List (String × Listing) :=
  match l.product_url with
  | none => m
  | some u =>
    if m.any (fun e => e.1 = u) then
      m.map (fun e => if e.1 = u then (u, l) else e)
    else m ++ [(u, l)]

/-- `list({p['product_url']: p for p in xs if 'product_url' in p}.values())`
from the `/search` route of `app.py`. -/
def uniqueByUrl (xs : List Listing) : List Listing :=
  (xs.foldl dictInsert []).map (fun e => e.2)

/-- Similarity of a keyword set to a pool listing.  This is meaningful
exactly when the listing has a name, which is a hypothesis wherever the
definition is used; a missing name defaults to the empty string here. -/
def simTo (akw : Finset String) (b : Listing) : ℚ :=
  similarity akw (get_keywords (b.name.getD ""))

/-- The greatest similarity over the pool, `0` for the empty pool. -/
def maxSim (akw : Finset String) (pool : List Listing) : ℚ :=
  (pool.map (simTo akw)).foldr max 0

/-- The candidate claim C2 literally describes: the earliest pool element
attaining the greatest similarity over the pool. -/
def claimedBest (akw : Finset String) (pool : List Listing) : Option Listing :=
  pool.find? (fun b => decide (simTo akw b = maxSim akw pool))

/-- The candidate selection the code actually performs (the amended
claim C2): as `claimedBest`, but only when the greatest similarity is
strictly positive; when every pool element has similarity `0`, no
candidate at all. -/
def specBest (akw : Finset String) (pool : List Listing) : Option Listing :=
  if 0 < maxSim akw pool then claimedBest akw pool else none

/-- Deduplication keeping the first occurrence of each element. -/
def firstDedup : List String → List String
  | [] => []
  | u :: us => u :: (firstDedup us).filter (fun v => v ≠ u)

/-- The distinct product URLs of `xs`, ordered by first occurrence. -/
def urlsInOrder (xs : List Listing) : List String :=
  firstDedup (xs.filterMap (fun l => l.product_url))

/-- The last listing of `xs` carrying the product URL `u`. -/
def lastWithUrl (xs : List Listing) (u : String) : Option Listing :=
  (xs.filter (fun l => l.product_url = some u)).getLast?

/-- The dict built by the `/search` comprehension, described at the spec
level: one entry per distinct URL, URLs ordered by first occurrence, each
mapped to the last listing carrying it. -/
def specAssoc (xs : List Listing) : List (String × Listing) :=
  (urlsInOrder xs).filterMap (fun u => (lastWithUrl xs u).map (fun v => (u, v)))

/-- Deduplication as the amended claim C8 describes it: the last listing
of each distinct URL, in first-occurrence order of the URLs; listings
without a `product_url` are dropped. -/
def specDedup (xs : List Listing) : List Listing :=
  (urlsInOrder xs).filterMap (lastWithUrl xs)

-- helper lemmas

lemma foldr_max_absorb (l : List ℚ) (a b : ℚ) :
    l.foldr max (max a b) = max a (l.foldr max b) := by
  induction l with
  | nil => rfl
  | cons c l ih => simp [List.foldr_cons, ih, max_left_comm]

lemma le_foldr_max (l : List ℚ) (b : ℚ) : b ≤ l.foldr max b := by
  induction l with
  | nil => exact le_refl b
  | cons c l ih => exact le_trans ih (le_max_right c _)

lemma foldr_max_cases (l : List ℚ) (b : ℚ) :
    l.foldr max b = b ∨ l.foldr max b ∈ l := by
  induction l with
  | nil => exact Or.inl rfl
  | cons c l ih =>
    rcases max_choice c (l.foldr max b) with h | h
    · exact Or.inr (by rw [List.foldr_cons, h]; exact List.mem_cons_self c l)
    · rcases ih with h2 | h2
      · exact Or.inl (by rw [List.foldr_cons, h, h2])
      · exact Or.inr (by rw [List.foldr_cons, h]; exact List.mem_cons_of_mem c h2)

lemma find_cons_pos {α : Type} (p : α → Bool) (a : α) (l : List α)
    (h : p a = true) : List.find? p (a :: l) = some a := by
  simp [List.find?_cons, h]

lemma find_cons_neg {α : Type} (p : α → Bool) (a : α) (l : List α)
    (h : p a = false) : List.find? p (a :: l) = List.find? p l := by
  simp [List.find?_cons, h]

lemma getName_of_name {b : Listing} {n : String} (h : b.name = some n) :
    getName b = .ok n := by
  simp [getName, h]

lemma simTo_of_name {akw : Finset String} {b : Listing} {n : String}
    (h : b.name = some n) : similarity akw (get_keywords n) = simTo akw b := by
  simp [simTo, h]

lemma findBest_cons {akw : Finset String} {f : Listing} {n : String}
    (rest : List Listing) (best : Option Listing) (hs : ℚ)
    (hn : f.name = some n) :
    findBest akw (f :: rest) best hs =
      if hs < simTo akw f then findBest akw rest (some f) (simTo akw f)
      else findBest akw rest best hs := by
  have h1 : findBest akw (f :: rest) best hs =
      Bind.bind (getName f) (fun n =>
        if hs < similarity akw (get_keywords n) then
          findBest akw rest (some f) (similarity akw (get_keywords n))
        else findBest akw rest best hs) := rfl
  rw [h1, getName_of_name hn]
  show (if hs < similarity akw (get_keywords n) then
      findBest akw rest (some f) (similarity akw (get_keywords n))
    else findBest akw rest best hs) =
    if hs < simTo akw f then findBest akw rest (some f) (simTo akw f)
    else findBest akw rest best hs
  rw [simTo_of_name hn]

lemma findBest_go (akw : Finset String) (pool : List Listing) :
    ∀ (best : Option Listing) (hs : ℚ), (∀ b ∈ pool, b.name.isSome) →
      findBest akw pool best hs =
        .ok (if hs < (pool.map (simTo akw)).foldr max hs then
              pool.find? (fun b =>
                decide (simTo akw b = (pool.map (simTo akw)).foldr max hs))
            else best,
          (pool.map (simTo akw)).foldr max hs) := by
  induction pool with
  | nil => intro best hs _; simp [findBest]
  | cons f rest ih =>
    intro best hs h
    obtain ⟨n, hn⟩ := Option.isSome_iff_exists.mp (h f (List.mem_cons_self f rest))
    have hrest : ∀ b ∈ rest, b.name.isSome :=
      fun b hb => h b (List.mem_cons_of_mem f hb)
    rw [findBest_cons rest best hs hn]
    rw [List.map_cons, List.foldr_cons]
    by_cases hlt : hs < simTo akw f
    · rw [if_pos hlt, ih (some f) (simTo akw f) hrest]
      have hMeq : (rest.map (simTo akw)).foldr max (simTo akw f) =
          max (simTo akw f) ((rest.map (simTo akw)).foldr max hs) := by
        have h1 := foldr_max_absorb (rest.map (simTo akw)) (simTo akw f) hs
        rw [max_eq_left (le_of_lt hlt)] at h1
        exact h1
      rw [hMeq]
      rw [if_pos (lt_of_lt_of_le hlt (le_max_left _ _))]
      by_cases hsM : simTo akw f =
          max (simTo akw f) ((rest.map (simTo akw)).foldr max hs)
      · rw [if_neg (show ¬ simTo akw f <
            max (simTo akw f) ((rest.map (simTo akw)).foldr max hs) by
          rw [← hsM]; exact lt_irrefl _)]
        rw [find_cons_pos (fun b => decide (simTo akw b =
            max (simTo akw f) ((rest.map (simTo akw)).foldr max hs)))
          f rest (decide_eq_true hsM)]
      · have hslt : simTo akw f <
            max (simTo akw f) ((rest.map (simTo akw)).foldr max hs) :=
          lt_of_le_of_ne (le_max_left _ _) hsM
        rw [if_pos hslt]
        rw [find_cons_neg (fun b => decide (simTo akw b =
            max (simTo akw f) ((rest.map (simTo akw)).foldr max hs)))
          f rest (decide_eq_false hsM)]
    · rw [if_neg hlt, ih best hs hrest]
      have hMeq : max (simTo akw f) ((rest.map (simTo akw)).foldr max hs) =
          (rest.map (simTo akw)).foldr max hs :=
        max_eq_right (le_trans (not_lt.mp hlt) (le_foldr_max _ _))
      rw [hMeq]
      by_cases hc : hs < (rest.map (simTo akw)).foldr max hs
      · rw [if_pos hc, if_pos hc]
        have hne : ¬ simTo akw f = (rest.map (simTo akw)).foldr max hs :=
          ne_of_lt (lt_of_le_of_lt (not_lt.mp hlt) hc)
        rw [find_cons_neg (fun b => decide (simTo akw b =
            (rest.map (simTo akw)).foldr max hs)) f rest (decide_eq_false hne)]
      · rw [if_neg hc, if_neg hc]

lemma findBest_run (akw : Finset String) (pool : List Listing)
    (h : ∀ b ∈ pool, b.name.isSome) :
    findBest akw pool none 0 = .ok (specBest akw pool, maxSim akw pool) := by
  rw [findBest_go akw pool none 0 h]
  rfl

lemma exceptBindOk {ε α β : Type} {x : Except ε α} {k : α → Except ε β} {b : β}
    (h : Bind.bind x k = Except.ok b) : ∃ a, x = .ok a ∧ k a = .ok b := by
  cases x with
  | ok a => exact ⟨a, rfl, h⟩
  | error e => exact Except.noConfusion h

lemma maxSim_attained {akw : Finset String} {pool : List Listing}
    (h : 0 < maxSim akw pool) : ∃ b ∈ pool, simTo akw b = maxSim akw pool := by
  rcases foldr_max_cases (pool.map (simTo akw)) 0 with h0 | hmem
  · rw [maxSim] at h
    rw [h0] at h
    exact absurd h (lt_irrefl 0)
  · obtain ⟨b, hb, hbe⟩ := List.mem_map.mp hmem
    exact ⟨b, hb, hbe⟩

lemma claimedBest_isSome_of_pos {akw : Finset String} {pool : List Listing}
    (h : 0 < maxSim akw pool) : ∃ bm, claimedBest akw pool = some bm := by
  obtain ⟨b, hb, hbe⟩ := maxSim_attained h
  have h2 : (List.find? (fun b => decide (simTo akw b = maxSim akw pool))
      pool).isSome :=
    List.find?_isSome.mpr ⟨b, hb, decide_eq_true hbe⟩
  exact Option.isSome_iff_exists.mp h2

lemma specBest_mem {akw : Finset String} {pool : List Listing} {bm : Listing}
    (h : specBest akw pool = some bm) :
    bm ∈ pool ∧ simTo akw bm = maxSim akw pool ∧ 0 < maxSim akw pool := by
  unfold specBest claimedBest at h
  by_cases hpos : 0 < maxSim akw pool
  · rw [if_pos hpos] at h
    have h3 := List.find?_some h
    exact ⟨List.mem_of_find?_eq_some h, of_decide_eq_true h3, hpos⟩
  · rw [if_neg hpos] at h
    exact Option.noConfusion h

lemma findBest_mem (akw : Finset String) (pool : List Listing) :
    ∀ (best : Option Listing) (hs : ℚ) (bm : Listing) (s : ℚ),
      findBest akw pool best hs = .ok (some bm, s) → bm ∈ pool ∨ best = some bm := by
  induction pool with
  | nil =>
    intro best hs bm s heq
    have h2 : (Except.ok (best, hs) : Except Unit (Option Listing × ℚ)) =
        .ok (some bm, s) := heq
    injection h2 with h3
    exact Or.inr (congrArg Prod.fst h3)
  | cons f rest ih =>
    intro best hs bm s heq
    cases hgf : getName f with
    | error e =>
      have h2 : (Except.error e : Except Unit (Option Listing × ℚ)) =
          .ok (some bm, s) := by
        rw [← heq]
        show Except.error e = Bind.bind (getName f) _
        rw [hgf]
        rfl
      exact Except.noConfusion h2
    | ok n =>
      have h2 : (if hs < similarity akw (get_keywords n) then
          findBest akw rest (some f) (similarity akw (get_keywords n))
        else findBest akw rest best hs) = .ok (some bm, s) := by
        rw [← heq]
        show _ = Bind.bind (getName f) _
        rw [hgf]
        rfl
      by_cases hcond : hs < similarity akw (get_keywords n)
      · rw [if_pos hcond] at h2
        rcases ih (some f) _ bm s h2 with hm | hb
        · exact Or.inl (List.mem_cons_of_mem f hm)
        · exact Or.inl (by rw [← Option.some.inj hb]; exact List.mem_cons_self f rest)
      · rw [if_neg hcond] at h2
        rcases ih best hs bm s h2 with hm | hb
        · exact Or.inl (List.mem_cons_of_mem f hm)
        · exact Or.inr hb

lemma findBest_err (akw : Finset String) (pool : List Listing) :
    ∀ (best : Option Listing) (hs : ℚ), (∃ b ∈ pool, b.name = none) →
      findBest akw pool best hs = .error () := by
  induction pool with
  | nil =>
    intro _ _ hex
    obtain ⟨b, hb, _⟩ := hex
    exact absurd hb (List.not_mem_nil b)
  | cons f rest ih =>
    intro best hs hex
    obtain ⟨b, hb, hbn⟩ := hex
    rcases List.mem_cons.mp hb with hbf | hbr
    · subst hbf
      show Bind.bind (getName b) _ = Except.error ()
      have hge : getName b = .error () := by simp [getName, hbn]
      rw [hge]
      rfl
    · cases hgf : getName f with
      | error e =>
        show Bind.bind (getName f) _ = Except.error ()
        rw [hgf]
        cases e
        rfl
      | ok n =>
        have h2 : findBest akw (f :: rest) best hs =
            (if hs < similarity akw (get_keywords n) then
              findBest akw rest (some f) (similarity akw (get_keywords n))
            else findBest akw rest best hs) := by
          show Bind.bind (getName f) _ = _
          rw [hgf]
          rfl
        rw [h2]
        by_cases hcond : hs < similarity akw (get_keywords n)
        · rw [if_pos hcond]
          exact ih (some f) _ ⟨b, hbr, hbn⟩
        · rw [if_neg hcond]
          exact ih best hs ⟨b, hbr, hbn⟩

lemma emitFor_both {pool : List Listing} {a bm : Listing} {ap fp : ℚ}
    (h1 : clean_price (some (a.price.getD "N/A")) = some ap)
    (h2 : clean_price (some (bm.price.getD "N/A")) = some fp) :
    emitFor pool a bm =
      (some ⟨a, bm, price_difference_str ap fp, best_deal_str ap fp⟩,
        pool.erase bm) := by
  unfold emitFor
  rw [h1, h2]

lemma emitFor_noneA {pool : List Listing} {a bm : Listing}
    (h1 : clean_price (some (a.price.getD "N/A")) = none) :
    emitFor pool a bm = (none, pool) := by
  unfold emitFor
  rw [h1]

lemma emitFor_noneB {pool : List Listing} {a bm : Listing}
    (h2 : clean_price (some (bm.price.getD "N/A")) = none) :
    emitFor pool a bm = (none, pool) := by
  unfold emitFor
  rw [h2]
  cases clean_price (some (a.price.getD "N/A")) <;> rfl

lemma emitFor_shape (pool : List Listing) (a bm : Listing) :
    emitFor pool a bm = (none, pool) ∨
    ∃ c, c.amazon_product = a ∧ c.flipkart_product = bm ∧
      emitFor pool a bm = (some c, pool.erase bm) := by
  cases hcpa : clean_price (some (a.price.getD "N/A")) with
  | none => exact Or.inl (emitFor_noneA hcpa)
  | some ap =>
    cases hcpb : clean_price (some (bm.price.getD "N/A")) with
    | none => exact Or.inl (emitFor_noneB hcpb)
    | some fp =>
      exact Or.inr ⟨⟨a, bm, price_difference_str ap fp, best_deal_str ap fp⟩,
        rfl, rfl, emitFor_both hcpa hcpb⟩

lemma processItem_cases {pool : List Listing} {a : Listing}
    {copt : Option Comparison} {pool2 : List Listing}
    (h : processItem pool a = .ok (copt, pool2)) :
    (copt = none ∧ pool2 = pool) ∨
    (∃ c, c.amazon_product = a ∧ copt = some c ∧ c.flipkart_product ∈ pool ∧
      pool2 = pool.erase c.flipkart_product) := by
  unfold processItem at h
  obtain ⟨an, hga, h2⟩ := exceptBindOk h
  obtain ⟨res, hfb, h3⟩ := exceptBindOk h2
  obtain ⟨bopt, hs⟩ := res
  split at h3
  · rename_i bm hs2 heqp
    have hbopt : bopt = some bm := congrArg Prod.fst heqp
    split at h3
    · rcases emitFor_shape pool a bm with hef | ⟨c, hca, hcf, hef⟩
      · rw [hef] at h3
        injection h3 with h4
        exact Or.inl ⟨(congrArg Prod.fst h4).symm, (congrArg Prod.snd h4).symm⟩
      · rw [hef] at h3
        injection h3 with h4
        have hcopt : some c = copt := congrArg Prod.fst h4
        have hpool : pool.erase bm = pool2 := congrArg Prod.snd h4
        refine Or.inr ⟨c, hca, hcopt.symm, ?_, by rw [← hpool, hcf]⟩
        rw [hbopt] at hfb
        rcases findBest_mem (get_keywords an) pool none 0 bm hs hfb with hm | hno
        · rw [hcf]
          exact hm
        · exact Option.noConfusion hno
    · injection h3 with h4
      exact Or.inl ⟨(congrArg Prod.fst h4).symm, (congrArg Prod.snd h4).symm⟩
  · injection h3 with h4
    exact Or.inl ⟨(congrArg Prod.fst h4).symm, (congrArg Prod.snd h4).symm⟩

lemma processItem_run (pool : List Listing) (a : Listing) (nm : String)
    (ha : a.name = some nm) (h : ∀ b ∈ pool, b.name.isSome) :
    processItem pool a = .ok (
      match specBest (get_keywords nm) pool with
      | some bm =>
        if 1/5 < maxSim (get_keywords nm) pool then emitFor pool a bm
        else (none, pool)
      | none => (none, pool)) := by
  show Bind.bind (getName a) _ = _
  rw [getName_of_name ha]
  show Bind.bind (findBest (get_keywords nm) pool none 0) _ = _
  rw [findBest_run _ _ h]
  cases hsb : specBest (get_keywords nm) pool with
  | none => rfl
  | some bm =>
    show (if 1/5 < maxSim (get_keywords nm) pool then
        (Except.ok (emitFor pool a bm) :
          Except Unit (Option Comparison × List Listing))
      else Except.ok (none, pool)) =
      Except.ok (if 1/5 < maxSim (get_keywords nm) pool then emitFor pool a bm
        else (none, pool))
    by_cases h15 : 1/5 < maxSim (get_keywords nm) pool
    · simp only [if_pos h15]
    · simp only [if_neg h15]

lemma compareLoop_inv {a : Listing} {rest pool : List Listing}
    {cs : List Comparison} (h : compareLoop (a :: rest) pool = .ok cs) :
    ∃ copt pool2 cs2, processItem pool a = .ok (copt, pool2) ∧
      compareLoop rest pool2 = .ok cs2 ∧
      cs = (match copt with | some c => c :: cs2 | none => cs2) := by
  unfold compareLoop at h
  obtain ⟨cp, hpi, h2⟩ := exceptBindOk h
  obtain ⟨copt, pool2⟩ := cp
  obtain ⟨cs2, hcl, h3⟩ := exceptBindOk h2
  refine ⟨copt, pool2, cs2, hpi, hcl, ?_⟩
  cases copt with
  | some c =>
    have h4 : (Except.ok (c :: cs2) : Except Unit (List Comparison)) = .ok cs := h3
    exact (Except.ok.inj h4).symm
  | none =>
    have h4 : (Except.ok cs2 : Except Unit (List Comparison)) = .ok cs := h3
    exact (Except.ok.inj h4).symm

lemma compareLoop_multiset : ∀ (A pool : List Listing) (cs : List Comparison),
    compareLoop A pool = .ok cs →
    (↑(cs.map (fun c => c.flipkart_product)) : Multiset Listing) ≤
      (↑pool : Multiset Listing) := by
  intro A
  induction A with
  | nil =>
    intro pool cs h
    have h2 : (Except.ok ([] : List Comparison) : Except Unit _) = .ok cs := h
    rw [← Except.ok.inj h2]
    simp
  | cons a rest ih =>
    intro pool cs h
    obtain ⟨copt, pool2, cs2, hpi, hcl, hcs⟩ := compareLoop_inv h
    rcases processItem_cases hpi with ⟨hnone, hpool⟩ | ⟨c, hca, hcopt, hmem, herase⟩
    · subst hnone
      subst hpool
      have hcs2 : cs = cs2 := hcs
      subst hcs2
      exact ih _ _ hcl
    · subst hcopt
      subst herase
      have hcs2 : cs = c :: cs2 := hcs
      subst hcs2
      have h1 := ih _ cs2 hcl
      have h2 : (↑((c :: cs2).map (fun c => c.flipkart_product)) :
          Multiset Listing) =
          c.flipkart_product ::ₘ ↑(cs2.map (fun c => c.flipkart_product)) := by
        simp
      rw [h2]
      have h3 : (↑(pool.erase c.flipkart_product) : Multiset Listing) =
          (↑pool : Multiset Listing).erase c.flipkart_product :=
        (Multiset.coe_erase pool c.flipkart_product).symm
      rw [h3] at h1
      have h4 := Multiset.cons_le_cons c.flipkart_product h1
      rw [Multiset.cons_erase (Multiset.mem_coe.mpr hmem)] at h4
      exact h4

lemma compareLoop_le_A : ∀ (A pool : List Listing) (cs : List Comparison),
    compareLoop A pool = .ok cs → cs.length ≤ A.length := by
  intro A
  induction A with
  | nil =>
    intro pool cs h
    have h2 : (Except.ok ([] : List Comparison) : Except Unit _) = .ok cs := h
    rw [← Except.ok.inj h2]
    exact Nat.zero_le 0
  | cons a rest ih =>
    intro pool cs h
    obtain ⟨copt, pool2, cs2, hpi, hcl, hcs⟩ := compareLoop_inv h
    cases copt with
    | none =>
      have hcs2 : cs = cs2 := hcs
      subst hcs2
      exact Nat.le_succ_of_le (ih pool2 cs hcl)
    | some c =>
      have hcs2 : cs = c :: cs2 := hcs
      subst hcs2
      exact Nat.succ_le_succ (ih pool2 cs2 hcl)

lemma compareLoop_err : ∀ (A pool : List Listing),
    (∃ a ∈ A, a.name = none) → compareLoop A pool = .error () := by
  intro A
  induction A with
  | nil =>
    intro pool hex
    obtain ⟨a, ha, _⟩ := hex
    exact absurd ha (List.not_mem_nil a)
  | cons a0 rest ih =>
    intro pool hex
    by_cases ha0 : a0.name = none
    · have hpi : processItem pool a0 = .error () := by
        show Bind.bind (getName a0) _ = _
        rw [show getName a0 = .error () from by simp [getName, ha0]]
        rfl
      show Bind.bind (processItem pool a0) _ = _
      rw [hpi]
      rfl
    · obtain ⟨a, ha, han⟩ := hex
      have har : a ∈ rest := by
        rcases List.mem_cons.mp ha with h1 | h1
        · exact absurd (h1 ▸ han) ha0
        · exact h1
      show Bind.bind (processItem pool a0) _ = _
      cases hpi : processItem pool a0 with
      | error e =>
        cases e
        rfl
      | ok r =>
        obtain ⟨copt, pool2⟩ := r
        show Bind.bind (compareLoop rest pool2) _ = _
        rw [ih pool2 ⟨a, har, han⟩]
        rfl

lemma compareLoop_nilpool : ∀ (A : List Listing),
    (∀ a ∈ A, a.name.isSome) → compareLoop A [] = .ok [] := by
  intro A
  induction A with
  | nil => intro _; rfl
  | cons a0 rest ih =>
    intro h
    obtain ⟨nm, hnm⟩ :=
      Option.isSome_iff_exists.mp (h a0 (List.mem_cons_self _ _))
    have hpi : processItem [] a0 = .ok (none, []) := by
      show Bind.bind (getName a0) _ = _
      rw [getName_of_name hnm]
      rfl
    show Bind.bind (processItem [] a0) _ = _
    rw [hpi]
    show Bind.bind (compareLoop rest []) _ = _
    rw [ih (fun a ha => h a (List.mem_cons_of_mem _ ha))]
    rfl

lemma firstDedup_mem (u : String) : ∀ (l : List String),
    u ∈ firstDedup l ↔ u ∈ l := by
  intro l
  induction l with
  | nil => simp [firstDedup]
  | cons v l ih =>
    by_cases huv : u = v
    · subst huv
      simp [firstDedup]
    · simp [firstDedup, List.mem_cons, List.mem_filter, ih, huv]

lemma firstDedup_append (u : String) : ∀ (l : List String),
    firstDedup (l ++ [u]) =
      if u ∈ l then firstDedup l else firstDedup l ++ [u] := by
  intro l
  induction l with
  | nil => simp [firstDedup]
  | cons v l ih =>
    show firstDedup (v :: (l ++ [u])) = _
    rw [firstDedup, ih]
    by_cases hu : u ∈ l
    · rw [if_pos hu, if_pos (List.mem_cons_of_mem v hu)]
      rfl
    · rw [if_neg hu]
      by_cases huv : u = v
      · subst huv
        rw [if_pos (List.mem_cons_self u l)]
        rw [List.filter_append]
        simp [firstDedup]
      · rw [if_neg (by simp [huv, hu])]
        rw [List.filter_append]
        have h1 : List.filter (fun w => decide (w ≠ v)) [u] = [u] := by
          simp [huv]
        rw [h1]
        rfl

lemma lastWithUrl_append (xs : List Listing) (x : Listing) (u : String) :
    lastWithUrl (xs ++ [x]) u =
      if x.product_url = some u then some x else lastWithUrl xs u := by
  unfold lastWithUrl
  rw [List.filter_append]
  by_cases hx : x.product_url = some u
  · rw [if_pos hx]
    have h1 : List.filter (fun l => decide (l.product_url = some u)) [x] =
        [x] := by simp [hx]
    rw [h1, List.getLast?_concat]
  · rw [if_neg hx]
    have h1 : List.filter (fun l => decide (l.product_url = some u)) [x] =
        [] := by simp [hx]
    rw [h1, List.append_nil]

lemma lastWithUrl_isSome {xs : List Listing} {u : String}
    (h : u ∈ xs.filterMap (fun l => l.product_url)) :
    (lastWithUrl xs u).isSome := by
  obtain ⟨l, hl, hlu⟩ := List.mem_filterMap.mp h
  have hmem : l ∈ xs.filter (fun l => decide (l.product_url = some u)) :=
    List.mem_filter.mpr ⟨hl, decide_eq_true hlu⟩
  unfold lastWithUrl
  exact List.getLast?_isSome.mpr (List.ne_nil_of_mem hmem)

lemma urls_isSome (xs : List Listing) :
    ∀ u ∈ urlsInOrder xs, (lastWithUrl xs u).isSome :=
  fun u hu => lastWithUrl_isSome ((firstDedup_mem u _).mp hu)

lemma snd_map_filterMap (g : String → Option Listing) :
    ∀ (l : List String),
      (l.filterMap (fun u => (g u).map (fun v => (u, v)))).map (fun e => e.2) =
        l.filterMap g := by
  intro l
  induction l with
  | nil => rfl
  | cons u l ih =>
    cases hgu : g u with
    | none => simp [List.filterMap_cons, hgu, ih]
    | some v => simp [List.filterMap_cons, hgu, ih]

lemma fst_map_filterMap (g : String → Option Listing) :
    ∀ (l : List String), (∀ u ∈ l, (g u).isSome) →
      (l.filterMap (fun u => (g u).map (fun v => (u, v)))).map (fun e => e.1) =
        l := by
  intro l
  induction l with
  | nil => intro _; rfl
  | cons u l ih =>
    intro h
    obtain ⟨v, hv⟩ := Option.isSome_iff_exists.mp (h u (List.mem_cons_self u l))
    simp [List.filterMap_cons, hv,
      ih (fun w hw => h w (List.mem_cons_of_mem u hw))]

lemma upd_filterMap (g : String → Option Listing) (u : String) (x : Listing) :
    ∀ (l : List String), (∀ v ∈ l, (g v).isSome) →
      ((l.filterMap (fun v => (g v).map (fun w => (v, w)))).map
        (fun e => if e.1 = u then (u, x) else e)) =
      l.filterMap (fun v =>
        (if v = u then some x else g v).map (fun w => (v, w))) := by
  intro l
  induction l with
  | nil => intro _; rfl
  | cons v l ih =>
    intro h
    obtain ⟨w, hw⟩ := Option.isSome_iff_exists.mp (h v (List.mem_cons_self v l))
    have ihl := ih (fun z hz => h z (List.mem_cons_of_mem v hz))
    by_cases hvu : v = u
    · subst hvu
      simp [List.filterMap_cons, hw, ihl]
    · simp [List.filterMap_cons, hw, ihl, hvu]

lemma specAssoc_keys (xs : List Listing) :
    (specAssoc xs).map (fun e => e.1) = urlsInOrder xs := by
  unfold specAssoc
  exact fst_map_filterMap (lastWithUrl xs) (urlsInOrder xs) (urls_isSome xs)

lemma foldl_dictInsert_eq : ∀ (xs : List Listing),
    xs.foldl dictInsert [] = specAssoc xs := by
  intro xs
  induction xs using List.reverseRecOn with
  | nil => rfl
  | append_singleton xs x ih =>
    rw [List.foldl_append, ih]
    show dictInsert (specAssoc xs) x = specAssoc (xs ++ [x])
    cases hx : x.product_url with
    | none =>
      have h1 : dictInsert (specAssoc xs) x = specAssoc xs := by
        unfold dictInsert
        rw [hx]
      rw [h1]
      unfold specAssoc urlsInOrder
      rw [List.filterMap_append]
      have h2 : List.filterMap (fun l => l.product_url) [x] = [] := by
        simp [hx]
      rw [h2, List.append_nil]
      refine (List.filterMap_congr ?_).symm
      intro v _
      rw [lastWithUrl_append, hx, if_neg (by simp)]
    | some u =>
      by_cases hu : u ∈ xs.filterMap (fun l => l.product_url)
      · have hukeys : u ∈ (specAssoc xs).map (fun e => e.1) := by
          rw [specAssoc_keys]
          exact (firstDedup_mem u _).mpr hu
        obtain ⟨e, he, hefst⟩ := List.mem_map.mp hukeys
        have hany : (specAssoc xs).any (fun e => decide (e.1 = u)) = true :=
          List.any_eq_true.mpr ⟨e, he, decide_eq_true hefst⟩
        have h1 : dictInsert (specAssoc xs) x =
            (specAssoc xs).map (fun e => if e.1 = u then (u, x) else e) := by
          simp only [dictInsert, hx]
          rw [if_pos hany]
        rw [h1]
        unfold specAssoc urlsInOrder
        rw [List.filterMap_append]
        have h2 : List.filterMap (fun l => l.product_url) [x] = [u] := by
          simp [hx]
        rw [h2, firstDedup_append, if_pos hu]
        have hcongr : ∀ v ∈ firstDedup (xs.filterMap (fun l => l.product_url)),
            (lastWithUrl (xs ++ [x]) v).map (fun w => (v, w)) =
            (if v = u then some x else lastWithUrl xs v).map
              (fun w => (v, w)) := by
          intro v _
          rw [lastWithUrl_append, hx]
          by_cases hvu : v = u
          · rw [if_pos (by rw [hvu]), if_pos hvu]
          · rw [if_neg (fun hc => hvu (Option.some.inj hc).symm), if_neg hvu]
        rw [List.filterMap_congr hcongr]
        exact upd_filterMap (lastWithUrl xs) u x _ (urls_isSome xs)
      · have hunotkeys : ¬ u ∈ (specAssoc xs).map (fun e => e.1) := by
          rw [specAssoc_keys]
          exact fun hc => hu ((firstDedup_mem u _).mp hc)
        have hany : ¬ (specAssoc xs).any (fun e => decide (e.1 = u)) = true := by
          intro hc
          obtain ⟨e, he, hefst⟩ := List.any_eq_true.mp hc
          exact hunotkeys (List.mem_map.mpr ⟨e, he, of_decide_eq_true hefst⟩)
        have h1 : dictInsert (specAssoc xs) x = specAssoc xs ++ [(u, x)] := by
          simp only [dictInsert, hx]
          rw [if_neg hany]
        rw [h1]
        unfold specAssoc urlsInOrder
        rw [List.filterMap_append]
        have h2 : List.filterMap (fun l => l.product_url) [x] = [u] := by
          simp [hx]
        rw [h2, firstDedup_append, if_neg hu, List.filterMap_append]
        have hcongr : ∀ v ∈ firstDedup (xs.filterMap (fun l => l.product_url)),
            (lastWithUrl (xs ++ [x]) v).map (fun w => (v, w)) =
            (lastWithUrl xs v).map (fun w => (v, w)) := by
          intro v hv
          have hvu : ¬ x.product_url = some v := by
            rw [hx]
            intro hc
            have hveq : v = u := (Option.some.inj hc).symm
            exact hu ((firstDedup_mem u _).mp (hveq ▸ hv))
          rw [lastWithUrl_append, if_neg hvu]
        rw [List.filterMap_congr hcongr]
        have h3 : List.filterMap (fun v =>
            (lastWithUrl (xs ++ [x]) v).map (fun w => (v, w))) [u] =
            [(u, x)] := by
          have h4 : lastWithUrl (xs ++ [x]) u = some x := by
            rw [lastWithUrl_append, hx, if_pos rfl]
          simp [List.filterMap_cons, h4]
        rw [h3]

lemma uniqueByUrl_spec (xs : List Listing) : uniqueByUrl xs = specDedup xs := by
  unfold uniqueByUrl specDedup
  rw [foldl_dictInsert_eq]
  unfold specAssoc
  exact snd_map_filterMap (lastWithUrl xs) (urlsInOrder xs)

-- sanity checks (concrete evaluations of the embedded code)
example : get_keywords "iPhone 15 128GB" =
    {"iphone", "15", "128gb"} := by decide
example : clean_price (some "₹12,999") = some 12999 := by decide
example : clean_price (some "N/A") = none := by decide
example : clean_price (some "not-a-price") = none := by decide
example : clean_price (some " ₹ 450 ") = some 450 := by decide
example : pyFloat "1_2.5".toList = some (125/10) := by decide
example : pyFloat "1_".toList = none := by decide
example : pyFloat ".".toList = none := by decide
example : pyFloat "-.5".toList = some (-(1/2)) := by decide
example : similarity (get_keywords "iPhone 15 128GB")
    (get_keywords "Apple iPhone 15 (128GB)") = 3/4 := by decide
example : commaTwoDecimals 1499 = "1,499.00" := by decide
example : commaTwoDecimals 0 = "0.00" := by decide
example : commaTwoDecimals (1234567 + 1/2) = "1,234,567.50" := by decide
example :
    compare_products [⟨some "iPhone 15 128GB", some "₹79,999", none⟩]
      [⟨some "Apple iPhone 15 (128GB)", some "₹78,500", none⟩] =
    .ok [⟨⟨some "iPhone 15 128GB", some "₹79,999", none⟩,
      ⟨some "Apple iPhone 15 (128GB)", some "₹78,500", none⟩,
      "â‚¹1,499.00", "Flipkart"⟩] := by decide
example :
    compare_products [⟨some "Samsung TV", some "₹50,000", none⟩]
      [⟨some "Kitchen Blender", some "₹2,000", none⟩] = .ok [] := by decide
example :
    uniqueByUrl [⟨some "n1", none, some "u1"⟩, ⟨some "n2", none, some "u2"⟩,
      ⟨some "n3", none, some "u1"⟩] =
    [⟨some "n3", none, some "u1"⟩, ⟨some "n2", none, some "u2"⟩] := by decide

-- claim theorems

/-- C1: for every pair of input collections, no two Comparisons in the
output of `compare_products` consume the same element of the B list:
counted with multiplicity, the matched B listings form a sub-multiset of
the input B list, so matching is a partial injective function from
A listings to B pool positions. -/
theorem claim_C1_injective_matching (A B : List Listing)
    (cs : List Comparison) (h : compare_products A B = .ok cs) :
    (↑(cs.map (fun c => c.flipkart_product)) : Multiset Listing) ≤
      (↑B : Multiset Listing) :=
  compareLoop_multiset A B cs h

theorem claim_C1_witness :
    (↑(([⟨⟨some "iPhone 15 128GB", some "₹79,999", none⟩,
        ⟨some "Apple iPhone 15 (128GB)", some "₹78,500", none⟩,
        "â‚¹1,499.00", "Flipkart"⟩] : List Comparison).map
        (fun c => c.flipkart_product)) : Multiset Listing) ≤
      (↑([⟨some "Apple iPhone 15 (128GB)", some "₹78,500", none⟩] :
        List Listing) : Multiset Listing) :=
  claim_C1_injective_matching
    [⟨some "iPhone 15 128GB", some "₹79,999", none⟩]
    [⟨some "Apple iPhone 15 (128GB)", some "₹78,500", none⟩]
    [⟨⟨some "iPhone 15 128GB", some "₹79,999", none⟩,
      ⟨some "Apple iPhone 15 (128GB)", some "₹78,500", none⟩,
      "â‚¹1,499.00", "Flipkart"⟩]
    (by decide)

/-- C2 counterexample: the claim says the candidate selected for `a` is
the pool element of greatest similarity with earliest-wins ties, for every
pool state.  On a pool whose only element has similarity 0 (disjoint
keywords), the claim selects that element (`claimedBest`, the selection
the claim describes), but the code selects no candidate at all, because
the tracker starts at `highest_similarity = 0.0` and only a strictly
greater similarity replaces it. -/
theorem claim_C2_counterexample :
    findBest (get_keywords "x") [⟨some "y", none, none⟩] none 0 =
      .ok (none, 0) ∧
    claimedBest (get_keywords "x") [⟨some "y", none, none⟩] =
      some ⟨some "y", none, none⟩ := by
  constructor
  · decide
  · decide

/-- C2 (amended): for every A name and pool state (all pool listings
carrying a name), the inner loop returns exactly the candidate described
by `specBest` — the earliest pool element attaining the greatest Jaccard
similarity over the pool, provided that greatest similarity is strictly
positive, and no candidate when every similarity is 0 — together with
that greatest similarity; and any returned candidate is a pool member
attaining the maximum, which is strictly positive. -/
theorem claim_C2_best_candidate (nm : String) (pool : List Listing)
    (h : ∀ b ∈ pool, b.name.isSome) :
    findBest (get_keywords nm) pool none 0 =
      .ok (specBest (get_keywords nm) pool, maxSim (get_keywords nm) pool) ∧
    (∀ bm, specBest (get_keywords nm) pool = some bm →
      bm ∈ pool ∧ simTo (get_keywords nm) bm = maxSim (get_keywords nm) pool ∧
      0 < maxSim (get_keywords nm) pool) :=
  ⟨findBest_run _ _ h, fun _ hbm => specBest_mem hbm⟩

theorem claim_C2_witness :
    findBest (get_keywords "red phone x")
        [⟨some "red phone y", some "₹100", none⟩] none 0 =
      .ok (specBest (get_keywords "red phone x")
          [⟨some "red phone y", some "₹100", none⟩],
        maxSim (get_keywords "red phone x")
          [⟨some "red phone y", some "₹100", none⟩]) :=
  (claim_C2_best_candidate "red phone x"
    [⟨some "red phone y", some "₹100", none⟩] (by decide)).1

/-- C4: on the spec scenario the code emits exactly one Comparison whose
winner is SourceB (`"Flipkart"`), and whose price difference has the
magnitude 1,499.00 the claim states — but the emitted string is
`"â‚¹1,499.00"`: the rupee sign in `app.py` is double-encoded (bytes
C3 A2 E2 80 9A C2 B9 where `seller.py` holds the genuine E2 82 B9), so
the claimed string `"₹1,499.00"` is never produced. -/
theorem claim_C4_scenario :
    compare_products [⟨some "iPhone 15 128GB", some "₹79,999", none⟩]
      [⟨some "Apple iPhone 15 (128GB)", some "₹78,500", none⟩] =
    .ok [⟨⟨some "iPhone 15 128GB", some "₹79,999", none⟩,
      ⟨some "Apple iPhone 15 (128GB)", some "₹78,500", none⟩,
      "â‚¹1,499.00", "Flipkart"⟩] ∧
    "â‚¹1,499.00" ≠ "₹1,499.00" := by
  constructor
  · decide
  · decide

/-- C5: `clean_price` is total (the embedding is a function, never an
exception) and returns the infinity sentinel (`none`) exactly when the
input is not a string (`none`), is the literal `"N/A"`, or fails float
parsing after stripping the rupee glyph, commas and ASCII letters and
trimming whitespace; including the concrete malformed inputs of the test
suite. -/
theorem claim_C5_clean_price_infinity :
    (∀ x : Option String, clean_price x = none ↔
      (x = none ∨ x = some "N/A" ∨
        ∃ s, x = some s ∧
          pyFloat (pyStrip (s.toList.filter (fun c => !isStrippedChar c))) =
            none)) ∧
    clean_price none = none ∧ clean_price (some "N/A") = none ∧
    clean_price (some "not-a-price") = none := by
  refine ⟨?_, rfl, by decide, by decide⟩
  intro x
  cases x with
  | none => simp [clean_price]
  | some s =>
    by_cases hs : s = "N/A"
    · subst hs
      simp [clean_price]
    · simp [clean_price, hs]

/-- C8 counterexample: with input `[l1(u1), l2(u2), l3(u1)]` the
survivors are `l3` (last of u1) and `l2`; in input order the survivors
are `[l2, l3]`, but the code returns `[l3, l2]`, because a Python dict
keeps an updated key at its first-insertion position — so the relative
input order of surviving listings is not preserved, contradicting the
claim. -/
theorem claim_C8_counterexample :
    uniqueByUrl [⟨some "n1", none, some "u1"⟩, ⟨some "n2", none, some "u2"⟩,
        ⟨some "n3", none, some "u1"⟩] =
      [⟨some "n3", none, some "u1"⟩, ⟨some "n2", none, some "u2"⟩] ∧
    uniqueByUrl [⟨some "n1", none, some "u1"⟩, ⟨some "n2", none, some "u2"⟩,
        ⟨some "n3", none, some "u1"⟩] ≠
      [⟨some "n2", none, some "u2"⟩, ⟨some "n3", none, some "u1"⟩] := by
  constructor
  · decide
  · decide

/-- C8 (amended): the per-source deduplication keeps, for each distinct
`product_url`, exactly the last listing of the input carrying it
(last-write-wins on the value), but places it at the position of the
first occurrence of that URL: the output is the distinct URLs in
first-occurrence order, each mapped to its last listing; listings without
a `product_url` are dropped. -/
theorem claim_C8_dedup_last_write_wins (xs : List Listing) :
    uniqueByUrl xs = specDedup xs :=
  uniqueByUrl_spec xs

/-- C9: `clean_price` strips the currency glyph and thousands separators
and parses the remainder as a decimal number: the two spec examples. -/
theorem claim_C9_normalize_examples :
    clean_price (some "₹12,999") = some 12999 ∧
    clean_price (some "₹1,200") = some 1200 := by
  constructor
  · decide
  · decide

/-- C6: the number of Comparisons is at most the length of either input
list, and an empty A or B collection yields the empty output (for the
A side, over listings that carry the `name` the data model requires). -/
theorem claim_C6_size_bounds :
    (∀ (A B : List Listing) (cs : List Comparison),
      compare_products A B = .ok cs → cs.length ≤ min A.length B.length) ∧
    (∀ B : List Listing, compare_products [] B = .ok []) ∧
    (∀ A : List Listing, (∀ a ∈ A, a.name.isSome) →
      compare_products A [] = .ok []) := by
  refine ⟨?_, fun B => rfl, fun A h => compareLoop_nilpool A h⟩
  intro A B cs h
  refine Nat.le_min.mpr ⟨compareLoop_le_A A B cs h, ?_⟩
  have h1 := compareLoop_multiset A B cs h
  have h2 := Multiset.card_le_card h1
  simpa using h2

theorem claim_C6_witness :
    compare_products [] [⟨some "tv", some "₹100", none⟩] = .ok [] ∧
    compare_products [⟨some "tv", some "₹100", none⟩] [] = .ok [] ∧
    ([] : List Comparison).length ≤
      min ([⟨some "tv", some "₹100", none⟩] : List Listing).length
        ([] : List Listing).length :=
  ⟨claim_C6_size_bounds.2.1 [⟨some "tv", some "₹100", none⟩],
   claim_C6_size_bounds.2.2 [⟨some "tv", some "₹100", none⟩] (by decide),
   claim_C6_size_bounds.1 [⟨some "tv", some "₹100", none⟩] [] [] (by decide)⟩

/-- C7 counterexample: a Listing lacking the `name` field is not treated
as an empty keyword set: the call fails (the `KeyError` of
`amazon_item['name']`, modelled as `Except.error ()`) instead of
completing. -/
theorem claim_C7_counterexample :
    compare_products [⟨none, some "₹100", none⟩] [] = .error () := by
  decide

/-- C7 (amended): a Listing lacking `name` makes `compare_products` fail
with a `KeyError` (modelled `Except.error ()`) rather than being treated
as an empty keyword set: any nameless listing in A fails the call, and a
nameless listing in B fails the call as soon as some A listing scans the
pool (A nonempty, A names present). -/
theorem claim_C7_missing_name_errors :
    (∀ (A B : List Listing), (∃ a ∈ A, a.name = none) →
      compare_products A B = .error ()) ∧
    (∀ (A B : List Listing), A ≠ [] → (∀ a ∈ A, a.name.isSome) →
      (∃ b ∈ B, b.name = none) → compare_products A B = .error ()) := by
  constructor
  · intro A B hex
    exact compareLoop_err A B hex
  · intro A B hA hnames hex
    cases A with
    | nil => exact absurd rfl hA
    | cons a0 rest =>
      obtain ⟨nm, hnm⟩ :=
        Option.isSome_iff_exists.mp (hnames a0 (List.mem_cons_self _ _))
      show Bind.bind (processItem B a0) _ = _
      have hpi : processItem B a0 = .error () := by
        show Bind.bind (getName a0) _ = _
        rw [getName_of_name hnm]
        show Bind.bind (findBest (get_keywords nm) B none 0) _ = _
        rw [findBest_err (get_keywords nm) B none 0 hex]
        rfl
      rw [hpi]
      rfl

theorem claim_C7_witness :
    compare_products [⟨some "tv", some "₹100", none⟩, ⟨none, none, none⟩]
      [] = .error () ∧
    compare_products [⟨some "tv", some "₹100", none⟩]
      [⟨none, some "₹100", none⟩] = .error () :=
  ⟨claim_C7_missing_name_errors.1
      [⟨some "tv", some "₹100", none⟩, ⟨none, none, none⟩] [] (by decide),
   claim_C7_missing_name_errors.2 [⟨some "tv", some "₹100", none⟩]
      [⟨none, some "₹100", none⟩] (by decide) (by decide) (by decide)⟩

/-- C3: for an A listing `a` (with the required `name`) over a pool of
named listings, `processItem` never fails; a Comparison is emitted for
`a` if and only if the greatest similarity over the whole pool exceeds
0.2 (`1/5`) and both `a` and the best-matching pool listing normalize to
a finite price; when no Comparison is emitted the pool is unchanged; and
an emitted Comparison removes exactly its matched B listing from the
pool. -/
theorem claim_C3_emission_conditions (pool : List Listing) (a : Listing)
    (nm : String) (ha : a.name = some nm)
    (hpool : ∀ b ∈ pool, b.name.isSome) :
    (∃ r, processItem pool a = .ok r) ∧
    ((∃ c pool2, processItem pool a = .ok (some c, pool2)) ↔
      (1/5 < maxSim (get_keywords nm) pool ∧
       clean_price (some (a.price.getD "N/A")) ≠ none ∧
       ∃ bm, specBest (get_keywords nm) pool = some bm ∧
         clean_price (some (bm.price.getD "N/A")) ≠ none)) ∧
    (∀ pool2, processItem pool a = .ok (none, pool2) → pool2 = pool) ∧
    (∀ c pool2, processItem pool a = .ok (some c, pool2) →
      specBest (get_keywords nm) pool = some c.flipkart_product ∧
      pool2 = pool.erase c.flipkart_product) := by
  have hrun := processItem_run pool a nm ha hpool
  cases hsb : specBest (get_keywords nm) pool with
  | none =>
    have hrun2 : processItem pool a = .ok (none, pool) := by
      rw [hrun, hsb]
    refine ⟨⟨(none, pool), hrun2⟩, ?_, ?_, ?_⟩
    · refine iff_of_false ?_ ?_
      · rintro ⟨c, pool2, hc⟩
        rw [hrun2] at hc
        injection hc with h4
        exact Option.noConfusion (congrArg Prod.fst h4)
      · rintro ⟨_, _, bm, hbm, _⟩
        exact Option.noConfusion hbm
    · intro pool2 hc
      rw [hrun2] at hc
      injection hc with h4
      exact (congrArg Prod.snd h4).symm
    · intro c pool2 hc
      rw [hrun2] at hc
      injection hc with h4
      exact Option.noConfusion (congrArg Prod.fst h4)
  | some bm =>
    by_cases h15 : 1/5 < maxSim (get_keywords nm) pool
    · have hrun2 : processItem pool a = .ok (emitFor pool a bm) := by
        rw [hrun, hsb]
        show Except.ok (if 1/5 < maxSim (get_keywords nm) pool then
            emitFor pool a bm else (none, pool)) = _
        rw [if_pos h15]
      cases hcpa : clean_price (some (a.price.getD "N/A")) with
      | none =>
        have hrun3 : processItem pool a = .ok (none, pool) := by
          rw [hrun2, emitFor_noneA hcpa]
        refine ⟨⟨(none, pool), hrun3⟩, ?_, ?_, ?_⟩
        · refine iff_of_false ?_ ?_
          · rintro ⟨c, pool2, hc⟩
            rw [hrun3] at hc
            injection hc with h4
            exact Option.noConfusion (congrArg Prod.fst h4)
          · rintro ⟨_, hap, _⟩
            exact hap rfl
        · intro pool2 hc
          rw [hrun3] at hc
          injection hc with h4
          exact (congrArg Prod.snd h4).symm
        · intro c pool2 hc
          rw [hrun3] at hc
          injection hc with h4
          exact Option.noConfusion (congrArg Prod.fst h4)
      | some ap =>
        cases hcpb : clean_price (some (bm.price.getD "N/A")) with
        | none =>
          have hrun3 : processItem pool a = .ok (none, pool) := by
            rw [hrun2, emitFor_noneB hcpb]
          refine ⟨⟨(none, pool), hrun3⟩, ?_, ?_, ?_⟩
          · refine iff_of_false ?_ ?_
            · rintro ⟨c, pool2, hc⟩
              rw [hrun3] at hc
              injection hc with h4
              exact Option.noConfusion (congrArg Prod.fst h4)
            · rintro ⟨_, _, bm2, hbm2, hbp⟩
              have hbm : bm = bm2 := Option.some.inj hbm2
              exact hbp (hbm ▸ hcpb)
          · intro pool2 hc
            rw [hrun3] at hc
            injection hc with h4
            exact (congrArg Prod.snd h4).symm
          · intro c pool2 hc
            rw [hrun3] at hc
            injection hc with h4
            exact Option.noConfusion (congrArg Prod.fst h4)
        | some fp =>
          have hrun3 : processItem pool a =
              .ok (some ⟨a, bm, price_difference_str ap fp,
                best_deal_str ap fp⟩, pool.erase bm) := by
            rw [hrun2, emitFor_both hcpa hcpb]
          refine ⟨⟨_, hrun3⟩, ?_, ?_, ?_⟩
          · refine iff_of_true ⟨_, _, hrun3⟩ ⟨h15, ?_, bm, rfl, ?_⟩
            · exact fun hc => Option.noConfusion hc
            · rw [hcpb]
              exact fun hc => Option.noConfusion hc
          · intro pool2 hc
            rw [hrun3] at hc
            injection hc with h4
            exact Option.noConfusion (congrArg Prod.fst h4)
          · intro c pool2 hc
            rw [hrun3] at hc
            injection hc with h4
            have h5 : some (⟨a, bm, price_difference_str ap fp,
                best_deal_str ap fp⟩ : Comparison) = some c :=
              congrArg Prod.fst h4
            have h6 : c = ⟨a, bm, price_difference_str ap fp,
                best_deal_str ap fp⟩ := (Option.some.inj h5).symm
            subst h6
            exact ⟨rfl, (congrArg Prod.snd h4).symm⟩
    · have hrun2 : processItem pool a = .ok (none, pool) := by
        rw [hrun, hsb]
        show Except.ok (if 1/5 < maxSim (get_keywords nm) pool then
            emitFor pool a bm else (none, pool)) = _
        rw [if_neg h15]
      refine ⟨⟨(none, pool), hrun2⟩, ?_, ?_, ?_⟩
      · refine iff_of_false ?_ ?_
        · rintro ⟨c, pool2, hc⟩
          rw [hrun2] at hc
          injection hc with h4
          exact Option.noConfusion (congrArg Prod.fst h4)
        · rintro ⟨h15c, _, _⟩
          exact h15 h15c
      · intro pool2 hc
        rw [hrun2] at hc
        injection hc with h4
        exact (congrArg Prod.snd h4).symm
      · intro c pool2 hc
        rw [hrun2] at hc
        injection hc with h4
        exact Option.noConfusion (congrArg Prod.fst h4)

theorem claim_C3_witness :
    ∃ r, processItem [⟨some "Apple iPhone 15 (128GB)", some "₹78,500", none⟩]
      ⟨some "iPhone 15 128GB", some "₹79,999", none⟩ = .ok r :=
  (claim_C3_emission_conditions
    [⟨some "Apple iPhone 15 (128GB)", some "₹78,500", none⟩]
    ⟨some "iPhone 15 128GB", some "₹79,999", none⟩
    "iPhone 15 128GB" rfl (by decide)).1

/-- C10: a concrete input pair on which an A listing produces no
Comparison although the pool holds a B listing above the threshold with a
finite price: the pool element of strictly greatest similarity has an
unparseable price (`"N/A"`, infinity), the A listing is skipped outright
with no fallback to the finite-priced candidate, and the unmatchable
B listing stays in the pool and absorbs the second A listing the same
way, so the whole output is empty. -/
theorem claim_C10_no_fallback :
    compare_products
      [⟨some "red phone x", some "₹100", none⟩,
       ⟨some "red phone x", some "₹100", none⟩]
      [⟨some "red phone x", some "N/A", none⟩,
       ⟨some "red phone y", some "₹100", none⟩] = .ok [] ∧
    1/5 < similarity (get_keywords "red phone x")
      (get_keywords "red phone y") ∧
    clean_price (some "₹100") ≠ none ∧
    clean_price (some "N/A") = none ∧
    specBest (get_keywords "red phone x")
      [⟨some "red phone x", some "N/A", none⟩,
       ⟨some "red phone y", some "₹100", none⟩] =
      some ⟨some "red phone x", some "N/A", none⟩ := by
  refine ⟨by decide, by decide, by decide, by decide, by decide⟩

end

end SellerScraper
